import Mathlib

set_option maxHeartbeats 1000000

/- The Batteries rational-arithmetic primitives are shipped
`@[irreducible]`, which blocks `decide` on concrete score computations;
restore the default reducibility for them. -/
set_option allowUnsafeReducibility true in
attribute [semireducible] Rat.add Rat.mul Rat.inv Rat.sub

/-!
Verification development for the document chunking engine
(`backend/utils/chunking.py`) and the multi-document vector retrieval
engine (`backend/services/vector_service.py`).

Modelling conventions:
* Python strings are modelled as `List Char` (sequences of code points).
* Embedding-vector entries are modelled as exact integers; the similarity
  score `1 / (1 + distance)` is an exact rational.  The code runs on
  float32 vectors; this embedding works with exact arithmetic, which keeps
  the ordering/ranking structure of the algorithms intact.
* Loops that may not terminate in the source (the fixed-size window loop)
  are modelled with an explicit fuel parameter; `none` means the loop has
  not finished within the given fuel.
-/

/-- The whitespace characters stripped by Python's `str.strip()`
(ASCII fragment, which covers all inputs appearing in this development). -/
def pyIsSpace (c : Char) : Bool :=
  c = ' ' || c = '\t' || c = '\n' || c = '\r' || c = '\x0b' || c = '\x0c'

/-- Python `str.strip()`: remove whitespace from both ends. -/
def pyStrip (l : List Char) : List Char :=
  ((l.dropWhile pyIsSpace).reverse.dropWhile pyIsSpace).reverse

/-- The non-whitespace characters of a string, in order. -/
def visibleChars (l : List Char) : List Char :=
  l.filter (fun c => !pyIsSpace c)

/-- `ChunkMetadata` from `backend/models.py`, as produced by
`TextChunker` in `backend/utils/chunking.py`. -/
structure ChunkMetadata where
  chunk_id : String
  doc_id : String
  page_num : Option Nat
  chunk_index : Nat
  text : List Char
  char_count : Nat
  token_count : Nat
deriving DecidableEq

/-- `TextChunker._estimate_tokens`: `len(text) // 4`. -/
def estimateTokens (l : List Char) : Nat := l.length / 4

/-- `page_nums[i] if page_nums and i < len(page_nums) else None`. -/
def pageAt (pageNums : Option (List Nat)) (i : Nat) : Option Nat :=
  (pageNums.getD []).get? i

/-- The `ChunkMetadata` record built for the i-th chunk by
`_recursive_chunking` (and, with the same fields, `_fixed_size_chunking`). -/
def mkChunk (docId : String) (pageNums : Option (List Nat)) (i : Nat)
    (t : List Char) : ChunkMetadata :=
  { chunk_id := docId ++ "_chunk_" ++ toString i
    doc_id := docId
    page_num := pageAt pageNums i
    chunk_index := i
    text := t
    char_count := t.length
    token_count := estimateTokens t }

/-- The loop of `TextChunker._fixed_size_chunking`, with fuel.  `start`
advances by `chunk_size - chunk_overlap` per iteration (as
`start = end - overlap` in the source); `none` means the fuel ran out
before the loop finished. -/
def fixedAux (chunkSize overlap : Nat) (docId : String)
    (pageNums : Option (List Nat)) (text : List Char) :
    Nat → Nat → Nat → Option (List ChunkMetadata)
  | 0, _, _ => none
  | fuel + 1, start, idx =>
    if start < text.length then
      let ct := (text.drop start).take chunkSize
      if pyStrip ct = [] then some []
      else
        match fixedAux chunkSize overlap docId pageNums text fuel
            (start + chunkSize - overlap) (idx + 1) with
        | none => none
        | some rest => some (mkChunk docId pageNums idx ct :: rest)
    else some []

/-- `TextChunker._fixed_size_chunking`; fuel `text.length + 1` is enough
whenever `chunk_overlap < chunk_size`. -/
def fixedSizeChunking (chunkSize overlap : Nat) (docId : String)
    (pageNums : Option (List Nat)) (text : List Char) :
    Option (List ChunkMetadata) :=
  fixedAux chunkSize overlap docId pageNums text (text.length + 1) 0 0

/-- Python `text.split(sep)` for a non-empty separator, with fuel
(`text.length + 1` is always sufficient). -/
def pySplitF (sep : List Char) : Nat → List Char → List (List Char)
  | 0, text => [text]
  | _ + 1, [] => [[]]
  | fuel + 1, c :: cs =>
    if List.take sep.length (c :: cs) = sep ∧ sep ≠ [] then
      [] :: pySplitF sep fuel (List.drop sep.length (c :: cs))
    else
      match pySplitF sep fuel cs with
      | [] => [[c]]
      | h :: t => (c :: h) :: t

/-- Python `text.split(sep)` for a non-empty separator. -/
def pySplit (sep text : List Char) : List (List Char) :=
  pySplitF sep (text.length + 1) text

/-- The `split_with_sep` pieces iterated over by `_recursive_split`:
`split + separator` for a real separator, the individual characters
(`list(text)`) for the empty separator. -/
def splitPieces (sep text : List Char) : List (List Char) :=
  if sep = [] then text.map (fun c => [c])
  else (pySplit sep text).map (fun s => s ++ sep)

/-- The accumulation loop inside `TextChunker._recursive_split`:
`acc` is `chunks`, `cur` is `current_chunk`, and `recur` is the
recursive call at the next separator level. -/
def rsplitLoop (chunkSize : Nat) (recur : List Char → List (List Char)) :
    List (List Char) → List (List Char) → List Char → List (List Char)
  | [], acc, cur => if pyStrip cur = [] then acc else acc ++ [pyStrip cur]
  | p :: ps, acc, cur =>
    if cur.length + p.length ≤ chunkSize then
      rsplitLoop chunkSize recur ps acc (cur ++ p)
    else
      let acc1 := if cur = [] then acc else acc ++ [pyStrip cur]
      if chunkSize < p.length then
        rsplitLoop chunkSize recur ps (acc1 ++ recur p) []
      else
        rsplitLoop chunkSize recur ps acc1 p

/-- `TextChunker._recursive_split text separators sep_index`, with the
separator list passed as the suffix `separators[sep_index:]`. -/
def rsplit (chunkSize : Nat) : List (List Char) → List Char → List (List Char)
  | [] => fun text => [text]
  | sep :: rest => fun text =>
    rsplitLoop chunkSize (rsplit chunkSize rest) (splitPieces sep text) [] []

/-- The `for i, chunk in enumerate(chunks)` conversion to `ChunkMetadata`
in `_recursive_chunking`. -/
def attachMeta (docId : String) (pageNums : Option (List Nat)) :
    Nat → List (List Char) → List ChunkMetadata
  | _, [] => []
  | i, t :: ts => mkChunk docId pageNums i t :: attachMeta docId pageNums (i + 1) ts

/-- The separator hierarchy of `_recursive_chunking`. -/
def pySeparators : List (List Char) :=
  [['\n', '\n'], ['\n'], ['.', ' '], ['!', ' '], ['?', ' '], [' '], []]

/-- `TextChunker._recursive_chunking`. -/
def recursiveChunking (chunkSize : Nat) (docId : String)
    (pageNums : Option (List Nat)) (text : List Char) : List ChunkMetadata :=
  attachMeta docId pageNums 0 (rsplit chunkSize pySeparators text)

/-- Python `re.split(r'\n\n+', text)`, with fuel: split on each maximal
run of two or more newlines.  `acc` holds the current segment reversed. -/
def paraSplitF : Nat → List Char → List Char → List (List Char)
  | 0, acc, rest => [acc.reverse ++ rest]
  | _ + 1, acc, [] => [acc.reverse]
  | fuel + 1, acc, c :: cs =>
    if c = '\n' ∧ cs.head? = some '\n' then
      acc.reverse :: paraSplitF fuel [] ((cs.drop 1).dropWhile (fun d => d = '\n'))
    else
      paraSplitF fuel (c :: acc) cs

/-- `re.split(r'\n\n+', text)`. -/
def paraSplit (text : List Char) : List (List Char) :=
  paraSplitF (text.length + 1) [] text

/-- The `ChunkMetadata` record built by `_semantic_chunking`: the text is
the stripped buffer, but `char_count` and `token_count` are computed from
the unstripped buffer. -/
def mkSemChunk (docId : String) (pageNums : Option (List Nat)) (i : Nat)
    (cur : List Char) : ChunkMetadata :=
  { chunk_id := docId ++ "_chunk_" ++ toString i
    doc_id := docId
    page_num := pageAt pageNums i
    chunk_index := i
    text := pyStrip cur
    char_count := cur.length
    token_count := estimateTokens cur }

/-- The paragraph-accumulation loop of `TextChunker._semantic_chunking`. -/
def semanticLoop (chunkSize : Nat) (docId : String)
    (pageNums : Option (List Nat)) :
    List (List Char) → List ChunkMetadata → List Char → Nat → List ChunkMetadata
  | [], chunks, cur, idx =>
    if pyStrip cur = [] then chunks
    else chunks ++ [mkSemChunk docId pageNums idx cur]
  | p :: ps, chunks, cur, idx =>
    let para := pyStrip p
    if para = [] then semanticLoop chunkSize docId pageNums ps chunks cur idx
    else if cur ≠ [] ∧ chunkSize < cur.length + para.length then
      semanticLoop chunkSize docId pageNums ps
        (chunks ++ [mkSemChunk docId pageNums idx cur]) (para ++ ['\n', '\n'])
        (idx + 1)
    else
      semanticLoop chunkSize docId pageNums ps chunks
        (cur ++ para ++ ['\n', '\n']) idx

/-- `TextChunker._semantic_chunking`. -/
def semanticChunking (chunkSize : Nat) (docId : String)
    (pageNums : Option (List Nat)) (text : List Char) : List ChunkMetadata :=
  semanticLoop chunkSize docId pageNums (paraSplit text) [] [] 0

/-- The chunking strategies of `config.ChunkingStrategy`. -/
inductive PyChunkingStrategy
  | fixed
  | recursive
  | semantic
deriving DecidableEq

/-- `TextChunker.chunk_text`: dispatch on the configured strategy.  The
result is `none` only when the fixed-size loop does not finish within its
fuel (which happens exactly when it would not terminate in the source). -/
def chunkTextModel (strategy : PyChunkingStrategy) (chunkSize overlap : Nat)
    (docId : String) (pageNums : Option (List Nat)) (text : List Char) :
    Option (List ChunkMetadata) :=
  match strategy with
  | .fixed => fixedSizeChunking chunkSize overlap docId pageNums text
  | .recursive => some (recursiveChunking chunkSize docId pageNums text)
  | .semantic => some (semanticChunking chunkSize docId pageNums text)

/-- The per-document data held by `VectorStoreService`: the FAISS index
(dimension and the stored vectors), the chunk list and the metadata map,
as cached in `_cache[doc_id]` and pickled by `_save_to_disk`. -/
structure DocIndex where
  dim : Nat
  vectors : List (List Int)
  chunks : List ChunkMetadata
  meta : List (String × String)
deriving DecidableEq

/-- `SearchResult` from `backend/models.py`; the entries of the `metadata`
dict built by `VectorStoreService.search` (`chunk_index`, `char_count`,
`distance`) are carried as fields. -/
structure SearchResult where
  doc_id : String
  chunk_id : String
  text : List Char
  score : ℚ
  page_num : Option Nat
  chunk_index : Nat
  char_count : Nat
  distance : Int
deriving DecidableEq

/-- The state of a `VectorStoreService`: the in-memory `_cache` and the
per-document files in `vector_store_dir`. -/
structure Store where
  cache : List (String × DocIndex)
  disk : List (String × DocIndex)
deriving DecidableEq

/-- `VectorStoreService._load_document`, as a pure lookup: cache first,
then disk.  (On a disk hit the source also inserts the loaded entry into
the cache; that mutation does not change any value returned by a search,
so it is not threaded through here.) -/
def loadDoc (st : Store) (docId : String) : Option DocIndex :=
  match st.cache.lookup docId with
  | some idx => some idx
  | none => st.disk.lookup docId

/-- Squared L2 distance, which is what `faiss.IndexFlatL2.search`
returns as its `distances` output. -/
def sqDist (q v : List Int) : Int :=
  ((q.zip v).map (fun p => (p.1 - p.2) ^ 2)).sum

/-- The distance-to-similarity conversion of `VectorStoreService.search`:
`score = 1 / (1 + dist)`. -/
def scoreOf (d : Int) : ℚ := 1 / (1 + (d : ℚ))

/-- The order in which exact flat L2 search returns its neighbors:
ascending distance, ties broken by ascending vector index. -/
def distLex (a b : Nat × Int) : Prop :=
  a.2 < b.2 ∨ (a.2 = b.2 ∧ a.1 ≤ b.1)

instance : DecidableRel distLex := fun a b =>
  inferInstanceAs (Decidable (a.2 < b.2 ∨ (a.2 = b.2 ∧ a.1 ≤ b.1)))

/-- The `(index, distance)` pairs of all stored vectors against a query. -/
def distPairs (q : List Int) : Nat → List (List Int) → List (Nat × Int)
  | _, [] => []
  | i, v :: vs => (i, sqDist q v) :: distPairs q (i + 1) vs

/-- All stored vectors ranked as flat exact L2 search ranks them. -/
def rankVectors (q : List Int) (vs : List (List Int)) : List (Nat × Int) :=
  List.insertionSort distLex (distPairs q 0 vs)

/-- The `SearchResult` built for one neighbor by
`VectorStoreService.search`. -/
def mkSearchResult (docId : String) (c : ChunkMetadata) (d : Int) :
    SearchResult :=
  { doc_id := docId
    chunk_id := c.chunk_id
    text := c.text
    score := scoreOf d
    page_num := c.page_num
    chunk_index := c.chunk_index
    char_count := c.char_count
    distance := d }

/-- `VectorStoreService.search`: load the document (an absent document
raises, modelled as `error`), query the flat index with
`min(top_k, len(chunks))` (a query of the wrong dimension also raises),
and keep the neighbors whose index is a valid chunk index
(`if idx < len(chunks)`). -/
def searchDoc (st : Store) (docId : String) (q : List Int) (k : Nat) :
    Except Unit (List SearchResult) :=
  match loadDoc st docId with
  | none => Except.error ()
  | some idx =>
    if q.length = idx.dim then
      Except.ok (((rankVectors q idx.vectors).take (min k idx.chunks.length)).filterMap
        (fun p => (idx.chunks.get? p.1).map (fun c => mkSearchResult docId c p.2)))
    else Except.error ()

/-- The sort key of `search_multi_documents`:
`sort(key=lambda x: x.score, reverse=True)` places `a` before `b` when
`b.score ≤ a.score`; Python's sort is stable. -/
def scoreGE (a b : SearchResult) : Prop := b.score ≤ a.score

instance : DecidableRel scoreGE := fun a b =>
  inferInstanceAs (Decidable (b.score ≤ a.score))

/-- The concatenated pool of per-document results accumulated by
`search_multi_documents`: a failing per-document search contributes
nothing (the `try/except` skips that document). -/
def multiPool (st : Store) (docIds : List String) (q : List Int) (k : Nat) :
    List SearchResult :=
  (docIds.map (fun d =>
    match searchDoc st d q k with
    | Except.ok rs => rs
    | Except.error _ => [])).flatten

/-- `VectorStoreService.search_multi_documents`: pool, stable-sort by
score descending, truncate to `max_total_results`. -/
def searchMulti (st : Store) (docIds : List String) (q : List Int)
    (k m : Nat) : List SearchResult :=
  (List.insertionSort scoreGE (multiPool st docIds q k)).take m

/-- The ways `store_document` can fail: the explicit chunks/embeddings
count check, a numpy shape error (`shape[1]` on an empty or ragged
array), or an I/O failure while persisting to disk. -/
inductive StoreErr
  | countMismatch
  | badShape
  | diskFail
deriving DecidableEq

/-- Replacement of a key's binding, as `self._cache[doc_id] = ...` and
the per-document pickle overwrite behave. -/
def updateEntry (l : List (String × DocIndex)) (docId : String)
    (idx : DocIndex) : List (String × DocIndex) :=
  (docId, idx) :: l.filter (fun p => p.1 != docId)

/-- The index `store_document` builds from validated embeddings. -/
def builtIndex (chunks : List ChunkMetadata) (v : List Int)
    (vs : List (List Int)) (meta : List (String × String)) : DocIndex :=
  { dim := v.length, vectors := v :: vs, chunks := chunks, meta := meta }

/-- `VectorStoreService.store_document`.  Validation failures (count
mismatch; `np.array(embeddings).shape[1]` failing on an empty or ragged
embedding list) happen before any state is touched.  Then the cache is
updated, and only afterwards `_save_to_disk` runs: `diskOk` says whether
that write succeeds (modelled as atomic); on failure the exception is
re-raised with the cache already updated. -/
def storeDocument (st : Store) (docId : String) (chunks : List ChunkMetadata)
    (embeddings : List (List Int)) (meta : List (String × String))
    (diskOk : Bool) : Store × Option StoreErr :=
  if chunks.length ≠ embeddings.length then (st, some StoreErr.countMismatch)
  else
    match embeddings with
    | [] => (st, some StoreErr.badShape)
    | v :: vs =>
      if vs.any (fun w => w.length != v.length) then (st, some StoreErr.badShape)
      else
        let idx := builtIndex chunks v vs meta
        let st1 : Store := { st with cache := updateEntry st.cache docId idx }
        if diskOk then
          ({ st1 with disk := updateEntry st1.disk docId idx }, none)
        else (st1, some StoreErr.diskFail)

/-- Per-document rank of a result: its position in the result list its
own document returned (the order referred to by the specification's
tie-breaking sentence). -/
def perDocRank (st : Store) (q : List Int) (k : Nat) (r : SearchResult) : Nat :=
  match searchDoc st r.doc_id q k with
  | Except.ok rs => rs.indexOf r
  | Except.error _ => 0

/-- Lexicographic comparison of strings as character lists. -/
def charListLeB : List Char → List Char → Bool
  | [], _ => true
  | _ :: _, [] => false
  | a :: as, b :: bs => if a = b then charListLeB as bs else decide (a < b)

/-- `doc_id` ascending, as used by the tie-break the claim describes. -/
def strLeB (a b : String) : Bool := charListLeB a.data b.data

/-- The pairwise order the claim asserts for `search_multi` output:
score descending; on equal score, per-document rank ascending, then
`doc_id` ascending. -/
def c3PairOK (st : Store) (q : List Int) (k : Nat) (a b : SearchResult) : Bool :=
  decide (b.score < a.score) ||
    (decide (a.score = b.score) &&
      (decide (perDocRank st q k a < perDocRank st q k b) ||
        (decide (perDocRank st q k a = perDocRank st q k b) &&
          strLeB a.doc_id b.doc_id)))

/-- Whether a result list satisfies the claimed `search_multi` order for
every pair of positions. -/
def c3OrderedB (st : Store) (q : List Int) (k : Nat) : List SearchResult → Bool
  | [] => true
  | a :: rest => rest.all (fun b => c3PairOK st q k a b) && c3OrderedB st q k rest

/-- A one-chunk document used by the concrete counterexamples. -/
def cexIndex (docId : String) : DocIndex :=
  { dim := 2
    vectors := [[0, 0]]
    chunks := [mkChunk docId none 0 ['x']]
    meta := [] }

/-- A store holding one-chunk documents "A" and "B" with identical
vectors, so that both score 1 against the query `[0, 0]`. -/
def cexStore : Store :=
  { cache := [("A", cexIndex "A"), ("B", cexIndex "B")], disk := [] }

/-! ## Helper lemmas about stripping and visible characters -/

lemma visibleChars_append (l m : List Char) :
    visibleChars (l ++ m) = visibleChars l ++ visibleChars m := by
  simp [visibleChars, List.filter_append]

lemma visibleChars_dropWhile (l : List Char) :
    visibleChars (l.dropWhile pyIsSpace) = visibleChars l := by
  induction l with
  | nil => rfl
  | cons c cs ih =>
    rw [List.dropWhile_cons]
    by_cases h : pyIsSpace c
    · rw [if_pos h, ih]
      unfold visibleChars
      rw [List.filter_cons]
      simp [h]
    · rw [if_neg h]

lemma visibleChars_reverse (l : List Char) :
    visibleChars l.reverse = (visibleChars l).reverse := by
  simp [visibleChars, List.filter_reverse]

lemma visibleChars_pyStrip (l : List Char) :
    visibleChars (pyStrip l) = visibleChars l := by
  unfold pyStrip
  rw [visibleChars_reverse, visibleChars_dropWhile, visibleChars_reverse,
    visibleChars_dropWhile, List.reverse_reverse]

lemma pyStrip_length_le (l : List Char) : (pyStrip l).length ≤ l.length := by
  unfold pyStrip
  calc ((l.dropWhile pyIsSpace).reverse.dropWhile pyIsSpace).reverse.length
      = ((l.dropWhile pyIsSpace).reverse.dropWhile pyIsSpace).length := by
        rw [List.length_reverse]
    _ ≤ (l.dropWhile pyIsSpace).reverse.length :=
        (List.dropWhile_sublist pyIsSpace).length_le
    _ = (l.dropWhile pyIsSpace).length := by rw [List.length_reverse]
    _ ≤ l.length := (List.dropWhile_sublist pyIsSpace).length_le

lemma visibleChars_eq_nil_of_pyStrip {l : List Char} (h : pyStrip l = []) :
    visibleChars l = [] := by
  rw [← visibleChars_pyStrip, h]; rfl

lemma pyStrip_ne_nil {l : List Char} (h : visibleChars l ≠ []) :
    pyStrip l ≠ [] :=
  fun hs => h (visibleChars_eq_nil_of_pyStrip hs)

lemma dropWhile_head_false (p : Char → Bool) :
    ∀ (l : List Char) {a : Char} {t : List Char},
      l.dropWhile p = a :: t → p a = false := by
  intro l
  induction l with
  | nil => intro a t h; simp [List.dropWhile] at h
  | cons c cs ih =>
    intro a t h
    rw [List.dropWhile_cons] at h
    by_cases hc : p c
    · rw [if_pos hc] at h; exact ih h
    · rw [if_neg hc] at h
      cases h
      simpa using hc

lemma visible_ne_nil_of_pyStrip_ne {l : List Char} (h : pyStrip l ≠ []) :
    visibleChars l ≠ [] := by
  unfold pyStrip at h
  set m := (l.dropWhile pyIsSpace).reverse with hm
  cases hd : m.dropWhile pyIsSpace with
  | nil => rw [hd] at h; simp at h
  | cons a t =>
    have ha : pyIsSpace a = false := dropWhile_head_false pyIsSpace m hd
    have hmem : a ∈ l := by
      have h1 : a ∈ m.dropWhile pyIsSpace := by rw [hd]; exact List.mem_cons_self a t
      have h2 : a ∈ m := (List.dropWhile_sublist pyIsSpace).subset h1
      have h3 : a ∈ l.dropWhile pyIsSpace := by
        rw [hm] at h2; exact List.mem_reverse.mp h2
      exact (List.dropWhile_sublist pyIsSpace).subset h3
    have : a ∈ visibleChars l := by
      unfold visibleChars
      exact List.mem_filter.mpr ⟨hmem, by simp [ha]⟩
    exact List.ne_nil_of_mem this

lemma pyStrip_length_lt {l : List Char} {c : Char} (hlast : l.getLast? = some c)
    (hc : pyIsSpace c = true) : (pyStrip l).length < l.length := by
  have hlnil : l ≠ [] := by
    intro h; rw [h] at hlast; simp at hlast
  cases h1 : l.dropWhile pyIsSpace with
  | nil =>
    have : pyStrip l = [] := by unfold pyStrip; rw [h1]; rfl
    rw [this]
    simpa using List.length_pos.mpr hlnil
  | cons b bs =>
    set l1 : List Char := b :: bs with hl1
    have hne1 : l1 ≠ [] := by simp [hl1]
    have hlast1 : l1.getLast? = some c := by
      have hsplit := List.takeWhile_append_dropWhile pyIsSpace l
      rw [h1] at hsplit
      rw [← hsplit, List.getLast?_append] at hlast
      rw [hl1] at hlast ⊢
      cases hgl : (b :: bs).getLast? with
      | none => simp at hgl
      | some x => rw [hgl] at hlast; simpa using hlast
    have hrev : l1.reverse.head? = some c := by
      rw [List.head?_reverse]; exact hlast1
    obtain ⟨t', ht'⟩ : ∃ t', l1.reverse = c :: t' := by
      cases hr : l1.reverse with
      | nil => rw [hr] at hrev; simp at hrev
      | cons x xs =>
        rw [hr] at hrev
        simp at hrev
        exact ⟨xs, by rw [hrev]⟩
    have hdw : l1.reverse.dropWhile pyIsSpace = t'.dropWhile pyIsSpace := by
      rw [ht', List.dropWhile_cons, if_pos hc]
    have hlen1 : (pyStrip l).length ≤ t'.length := by
      unfold pyStrip
      rw [h1, List.length_reverse, hdw]
      exact (List.dropWhile_sublist pyIsSpace).length_le
    have hlen2 : t'.length + 1 = l1.length := by
      have := congrArg List.length ht'
      simpa [List.length_reverse] using this.symm
    have hlen3 : l1.length ≤ l.length := by
      rw [← h1] at hl1
      calc l1.length = (l.dropWhile pyIsSpace).length := by rw [hl1]
        _ ≤ l.length := (List.dropWhile_sublist pyIsSpace).length_le
    omega

/-! ## The fixed-size strategy: C5 and C8 -/

lemma fixedAux_no_progress (chunkSize : Nat) (docId : String)
    (pageNums : Option (List Nat)) (text : List Char) :
    ∀ fuel start idx, start < text.length →
      pyStrip ((text.drop start).take chunkSize) ≠ [] →
      fixedAux chunkSize chunkSize docId pageNums text fuel start idx = none := by
  intro fuel
  induction fuel with
  | zero => intro start idx _ _; rfl
  | succ n ih =>
    intro start idx hs hstrip
    have harith : start + chunkSize - chunkSize = start := by omega
    simp only [fixedAux, if_pos hs, if_neg hstrip, harith,
      ih start (idx + 1) hs hstrip]

lemma ceil_div_step (x s : Nat) (hx : 0 < x) (hs : 0 < s) :
    (x + s - 1) / s = (x - s + s - 1) / s + 1 := by
  rcases le_or_lt x s with h | h
  · have h0 : x - s = 0 := by omega
    have h1 : (x + s - 1) / s = 1 := by
      apply Nat.div_eq_of_lt_le (by omega) (by omega)
    have h2 : (x - s + s - 1) / s = 0 := by
      apply Nat.div_eq_of_lt
      omega
    omega
  · have hsplit : x + s - 1 = (x - s + s - 1) + s := by omega
    rw [hsplit, Nat.add_div_right _ hs]

lemma slice_strip_ne (chunkSize start : Nat) (text : List Char)
    (hcs : 0 < chunkSize) (hs : start < text.length)
    (hvis : ∀ c ∈ text, pyIsSpace c = false) :
    pyStrip ((text.drop start).take chunkSize) ≠ [] := by
  have hdne : text.drop start ≠ [] := by
    intro h
    rw [List.drop_eq_nil_iff] at h
    omega
  have hctne : (text.drop start).take chunkSize ≠ [] := by
    intro h
    rcases List.take_eq_nil_iff.mp h with h' | h'
    · omega
    · exact hdne h'
  obtain ⟨a, ha⟩ := List.exists_mem_of_ne_nil _ hctne
  have hat : a ∈ text :=
    List.drop_subset start text ((List.take_sublist _ _).subset ha)
  apply pyStrip_ne_nil
  exact List.ne_nil_of_mem (List.mem_filter.mpr ⟨ha, by simp [hvis a hat]⟩)

lemma fixedAux_succ (chunkSize overlap : Nat) (docId : String)
    (pageNums : Option (List Nat)) (text : List Char) (fuel start idx : Nat) :
    fixedAux chunkSize overlap docId pageNums text (fuel + 1) start idx =
      if start < text.length then
        if pyStrip ((text.drop start).take chunkSize) = [] then some []
        else
          match fixedAux chunkSize overlap docId pageNums text fuel
              (start + chunkSize - overlap) (idx + 1) with
          | none => none
          | some rest =>
            some (mkChunk docId pageNums idx ((text.drop start).take chunkSize) :: rest)
      else some [] := rfl

lemma fixedAux_spec (chunkSize overlap : Nat) (docId : String)
    (pageNums : Option (List Nat)) (text : List Char)
    (hov : overlap < chunkSize) (hvis : ∀ c ∈ text, pyIsSpace c = false) :
    ∀ fuel start idx, text.length - start < fuel →
      ∃ l, fixedAux chunkSize overlap docId pageNums text fuel start idx = some l ∧
        l.length = (text.length - start + (chunkSize - overlap) - 1) / (chunkSize - overlap) ∧
        ∀ j c, l.get? j = some c →
          c.text = (text.drop (start + j * (chunkSize - overlap))).take chunkSize := by
  intro fuel
  induction fuel with
  | zero => intro start idx h; omega
  | succ n ih =>
    intro start idx hfuel
    rw [fixedAux_succ]
    by_cases hs : start < text.length
    · have hct : pyStrip ((text.drop start).take chunkSize) ≠ [] :=
        slice_strip_ne chunkSize start text (by omega) hs hvis
      obtain ⟨rest, hrest, hlen, hget⟩ :=
        ih (start + (chunkSize - overlap)) (idx + 1) (by omega)
      have harith : start + chunkSize - overlap = start + (chunkSize - overlap) := by
        omega
      rw [if_pos hs, if_neg hct, harith, hrest]
      refine ⟨_, rfl, ?_, ?_⟩
      · rw [List.length_cons, hlen]
        have harith2 : text.length - (start + (chunkSize - overlap)) =
            text.length - start - (chunkSize - overlap) := by omega
        rw [harith2]
        rw [ceil_div_step (text.length - start) (chunkSize - overlap)
          (by omega) (by omega)]
      · intro j c hj
        cases j with
        | zero =>
          rw [List.get?_cons_zero] at hj
          cases hj
          simp [mkChunk]
        | succ j =>
          rw [List.get?_cons_succ] at hj
          have hc := hget j c hj
          rw [hc]
          have harg : start + (chunkSize - overlap) + j * (chunkSize - overlap) =
              start + (j + 1) * (chunkSize - overlap) := by ring
          rw [harg]
    · rw [if_neg hs]
      refine ⟨[], rfl, ?_, ?_⟩
      · have h0 : text.length - start = 0 := by omega
        rw [h0, List.length_nil]
        symm
        apply Nat.div_eq_of_lt
        omega
      · intro j c hj
        simp at hj

lemma fixedAux_mem_props (chunkSize overlap : Nat) (docId : String)
    (pageNums : Option (List Nat)) (text : List Char) :
    ∀ fuel start idx l,
      fixedAux chunkSize overlap docId pageNums text fuel start idx = some l →
      ∀ c ∈ l, pyStrip c.text ≠ [] ∧ c.char_count = c.text.length := by
  intro fuel
  induction fuel with
  | zero => intro start idx l h; cases h
  | succ n ih =>
    intro start idx l h
    rw [fixedAux_succ] at h
    by_cases hs : start < text.length
    · rw [if_pos hs] at h
      by_cases hstrip : pyStrip ((text.drop start).take chunkSize) = []
      · rw [if_pos hstrip] at h
        cases h
        intro c hc
        simp at hc
      · rw [if_neg hstrip] at h
        cases hm : fixedAux chunkSize overlap docId pageNums text n
            (start + chunkSize - overlap) (idx + 1) with
        | none => rw [hm] at h; cases h
        | some rest =>
          rw [hm] at h
          cases h
          intro c hc
          rcases List.mem_cons.mp hc with hceq | hcrest
          · subst hceq
            exact ⟨hstrip, rfl⟩
          · exact ih _ _ _ hm c hcrest
    · rw [if_neg hs] at h
      cases h
      intro c hc
      simp at hc

/-- C5: the source performs no `chunk_overlap < chunk_size` validation at
all; with `chunk_overlap = chunk_size = 5` on the non-whitespace text
"hello world" the fixed-size loop never advances `start`, so no fuel
suffices: the call never terminates instead of failing fast with a
configuration error. -/
theorem fixed_overlap_eq_size_never_finishes (fuel : Nat) :
    fixedAux 5 5 "doc5" none
      ['h', 'e', 'l', 'l', 'o', ' ', 'w', 'o', 'r', 'l', 'd'] fuel 0 0 = none :=
  fixedAux_no_progress 5 "doc5" none _ fuel 0 0 (by decide) (by decide)

/-- C8 counterexample: on the 10-character whitespace-free text
"abcdefghij" with `chunk_size = 5`, `chunk_overlap = 2`, the code
produces 4 chunks (starts 0, 3, 6, 9), while the claimed formula
`ceil((len(text) - chunk_overlap) / (chunk_size - chunk_overlap))`
gives 3. -/
theorem fixed_count_formula_counterexample :
    (fixedSizeChunking 5 2 "doc8" none
        ['a', 'b', 'c', 'd', 'e', 'f', 'g', 'h', 'i', 'j']).map List.length =
      some 4 ∧
    (10 - 2 + (5 - 2) - 1) / (5 - 2) = 3 := by
  decide

/-- C8 (amended): for the Fixed strategy with `chunk_overlap <
chunk_size`, on a non-empty text whose characters are all
non-whitespace, chunk `i`'s text is the window of `chunk_size`
characters starting at offset `i * (chunk_size - chunk_overlap)`, and
the number of chunks is `ceil(len(text) / (chunk_size - chunk_overlap))`
(not `ceil((len(text) - chunk_overlap) / (chunk_size - chunk_overlap))`). -/
theorem fixed_offsets_and_count (chunkSize overlap : Nat) (docId : String)
    (pageNums : Option (List Nat)) (text : List Char) (l : List ChunkMetadata)
    (hov : overlap < chunkSize) (hne : text ≠ [])
    (hvis : ∀ c ∈ text, pyIsSpace c = false)
    (h : chunkTextModel PyChunkingStrategy.fixed chunkSize overlap docId
      pageNums text = some l) :
    l.length = (text.length + (chunkSize - overlap) - 1) / (chunkSize - overlap) ∧
    ∀ j c, l.get? j = some c →
      c.text = (text.drop (j * (chunkSize - overlap))).take chunkSize := by
  obtain ⟨l', hl', hlen, hget⟩ :=
    fixedAux_spec chunkSize overlap docId pageNums text hov hvis
      (text.length + 1) 0 0 (by omega)
  have hll : l = l' := by
    have : chunkTextModel PyChunkingStrategy.fixed chunkSize overlap docId
        pageNums text = some l' := hl'
    rw [h] at this
    exact Option.some.inj this
  subst hll
  constructor
  · rw [hlen]
    norm_num
  · intro j c hj
    have hc := hget j c hj
    have h0 : 0 + j * (chunkSize - overlap) = j * (chunkSize - overlap) := by omega
    rw [hc, h0]

/-- C8 witness: the amended statement instantiated on the concrete text
"ab" with `chunk_size = 2`, `chunk_overlap = 0`. -/
theorem fixed_offsets_and_count_witness :
    (0 < 2) ∧ (['a', 'b'] : List Char) ≠ [] ∧
    (∀ c ∈ (['a', 'b'] : List Char), pyIsSpace c = false) ∧
    chunkTextModel PyChunkingStrategy.fixed 2 0 "d" none ['a', 'b'] =
      some [mkChunk "d" none 0 ['a', 'b']] ∧
    ([mkChunk "d" none 0 ['a', 'b']].length =
        ((['a', 'b'] : List Char).length + (2 - 0) - 1) / (2 - 0) ∧
      ∀ j c, [mkChunk "d" none 0 ['a', 'b']].get? j = some c →
        c.text = ((['a', 'b'] : List Char).drop (j * (2 - 0))).take 2) :=
  ⟨by decide, by decide, by decide, by decide,
    fixed_offsets_and_count 2 0 "d" none ['a', 'b'] [mkChunk "d" none 0 ['a', 'b']]
      (by decide) (by decide) (by decide) (by decide)⟩

/-! ## The recursive strategy: C1, C2, C9 -/

lemma rsplitLoop_nil (chunkSize : Nat) (recur : List Char → List (List Char))
    (acc : List (List Char)) (cur : List Char) :
    rsplitLoop chunkSize recur [] acc cur =
      if pyStrip cur = [] then acc else acc ++ [pyStrip cur] := rfl

lemma rsplitLoop_cons (chunkSize : Nat) (recur : List Char → List (List Char))
    (p : List Char) (ps : List (List Char)) (acc : List (List Char))
    (cur : List Char) :
    rsplitLoop chunkSize recur (p :: ps) acc cur =
      if cur.length + p.length ≤ chunkSize then
        rsplitLoop chunkSize recur ps acc (cur ++ p)
      else
        if chunkSize < p.length then
          rsplitLoop chunkSize recur ps
            ((if cur = [] then acc else acc ++ [pyStrip cur]) ++ recur p) []
        else
          rsplitLoop chunkSize recur ps
            (if cur = [] then acc else acc ++ [pyStrip cur]) p := rfl

lemma rsplit_nil (chunkSize : Nat) (text : List Char) :
    rsplit chunkSize [] text = [text] := rfl

lemma rsplit_cons (chunkSize : Nat) (sep : List Char) (rest : List (List Char))
    (text : List Char) :
    rsplit chunkSize (sep :: rest) text =
      rsplitLoop chunkSize (rsplit chunkSize rest) (splitPieces sep text) [] [] := rfl

lemma pySplitF_ne_nil (sep : List Char) :
    ∀ fuel text, pySplitF sep fuel text ≠ [] := by
  intro fuel
  induction fuel with
  | zero => intro text; simp [pySplitF]
  | succ n ih =>
    intro text
    cases text with
    | nil => simp [pySplitF]
    | cons c cs =>
      rw [pySplitF]
      by_cases h : List.take sep.length (c :: cs) = sep ∧ sep ≠ []
      · rw [if_pos h]; simp
      · rw [if_neg h]
        cases hm : pySplitF sep n cs with
        | nil => simp
        | cons a t => simp

lemma pySplitF_join (sep : List Char) (hsep : sep ≠ []) :
    ∀ fuel text, text.length < fuel →
      ((pySplitF sep fuel text).map (fun s => s ++ sep)).flatten = text ++ sep := by
  intro fuel
  induction fuel with
  | zero => intro text h; omega
  | succ n ih =>
    intro text hlen
    cases text with
    | nil => simp [pySplitF]
    | cons c cs =>
      rw [pySplitF]
      by_cases h : List.take sep.length (c :: cs) = sep ∧ sep ≠ []
      · rw [if_pos h]
        have hsl : 0 < sep.length := List.length_pos.mpr hsep
        have hdroplen : (List.drop sep.length (c :: cs)).length < n := by
          rw [List.length_drop]
          simp only [List.length_cons] at hlen
          simp only [List.length_cons]
          omega
        have hrec := ih (List.drop sep.length (c :: cs)) hdroplen
        simp only [List.map_cons, List.flatten_cons, hrec, List.nil_append]
        rw [← List.append_assoc]
        have hsplit : sep ++ List.drop sep.length (c :: cs) = c :: cs := by
          conv_rhs => rw [← List.take_append_drop sep.length (c :: cs)]
          rw [h.1]
        rw [hsplit]
      · rw [if_neg h]
        cases hm : pySplitF sep n cs with
        | nil => exact absurd hm (pySplitF_ne_nil sep n cs)
        | cons a t =>
          have hlcs : cs.length < n := by
            simp only [List.length_cons] at hlen
            omega
          have hrec := ih cs hlcs
          rw [hm] at hrec
          simp only [List.map_cons, List.flatten_cons] at hrec ⊢
          simp only [List.cons_append, List.append_assoc] at hrec ⊢
          rw [hrec]

lemma splitPieces_flatten_sep (sep text : List Char) (hsep : sep ≠ []) :
    (splitPieces sep text).flatten = text ++ sep := by
  unfold splitPieces pySplit
  rw [if_neg hsep]
  exact pySplitF_join sep hsep (text.length + 1) text (by omega)

lemma splitPieces_flatten_nil (text : List Char) :
    (splitPieces [] text).flatten = text := by
  unfold splitPieces
  rw [if_pos rfl]
  induction text with
  | nil => rfl
  | cons c cs ih => simp only [List.map_cons, List.flatten_cons, ih, List.cons_append,
      List.nil_append]

lemma acc1_visible (acc : List (List Char)) (cur : List Char) :
    visibleChars (if cur = [] then acc else acc ++ [pyStrip cur]).flatten =
      visibleChars acc.flatten ++ visibleChars cur := by
  by_cases h : cur = []
  · rw [if_pos h, h]
    simp [visibleChars]
  · rw [if_neg h, List.flatten_append]
    simp only [List.flatten_cons, List.flatten_nil, List.append_nil]
    rw [visibleChars_append, visibleChars_pyStrip]

lemma rsplitLoop_no_loss (chunkSize : Nat)
    (recur : List Char → List (List Char)) :
    ∀ ps acc cur,
      (∀ p ∈ ps, chunkSize < p.length →
        List.Sublist (visibleChars p) (visibleChars (recur p).flatten)) →
      List.Sublist (visibleChars (acc.flatten ++ cur ++ ps.flatten))
        (visibleChars (rsplitLoop chunkSize recur ps acc cur).flatten) := by
  intro ps
  induction ps with
  | nil =>
    intro acc cur _
    rw [rsplitLoop_nil]
    by_cases h : pyStrip cur = []
    · rw [if_pos h]
      have hcur : visibleChars cur = [] := visibleChars_eq_nil_of_pyStrip h
      rw [List.flatten_nil, List.append_nil, visibleChars_append, hcur,
        List.append_nil]
    · rw [if_neg h, List.flatten_nil, List.append_nil, List.flatten_append]
      simp only [List.flatten_cons, List.flatten_nil, List.append_nil]
      rw [visibleChars_append, visibleChars_append, visibleChars_pyStrip]
  | cons p ps ih =>
    intro acc cur hrec
    rw [rsplitLoop_cons]
    by_cases hfit : cur.length + p.length ≤ chunkSize
    · rw [if_pos hfit]
      have h1 := ih acc (cur ++ p) (fun q hq hql => hrec q (List.mem_cons_of_mem p hq) hql)
      simp only [List.flatten_cons, visibleChars_append, List.append_assoc] at h1 ⊢
      exact h1
    · rw [if_neg hfit]
      by_cases hover : chunkSize < p.length
      · rw [if_pos hover]
        have h1 := ih ((if cur = [] then acc else acc ++ [pyStrip cur]) ++ recur p) []
          (fun q hq hql => hrec q (List.mem_cons_of_mem p hq) hql)
        have hp := hrec p (List.mem_cons_self p ps) hover
        simp only [List.flatten_append, acc1_visible, visibleChars_append,
          List.append_nil, List.append_assoc] at h1
        simp only [List.flatten_cons, visibleChars_append, List.append_assoc]
        refine List.Sublist.trans ?_ h1
        apply List.Sublist.append (List.Sublist.refl _)
        apply List.Sublist.append (List.Sublist.refl _)
        exact List.Sublist.append hp (List.Sublist.refl _)
      · rw [if_neg hover]
        have h1 := ih (if cur = [] then acc else acc ++ [pyStrip cur]) p
          (fun q hq hql => hrec q (List.mem_cons_of_mem p hq) hql)
        simp only [acc1_visible, visibleChars_append, List.append_assoc] at h1
        simp only [List.flatten_cons, visibleChars_append, List.append_assoc]
        exact h1

lemma rsplit_no_loss (chunkSize : Nat) :
    ∀ seps text,
      List.Sublist (visibleChars text)
        (visibleChars (rsplit chunkSize seps text).flatten) := by
  intro seps
  induction seps with
  | nil =>
    intro text
    rw [rsplit_nil]
    simp only [List.flatten_cons, List.flatten_nil, List.append_nil]
    exact List.Sublist.refl _
  | cons sep rest ih =>
    intro text
    rw [rsplit_cons]
    have hloop := rsplitLoop_no_loss chunkSize (rsplit chunkSize rest)
      (splitPieces sep text) [] [] (fun p _ _ => ih p)
    simp only [List.flatten_nil, List.nil_append] at hloop
    by_cases hsep : sep = []
    · subst hsep
      rw [splitPieces_flatten_nil] at hloop
      exact hloop
    · rw [splitPieces_flatten_sep sep text hsep, visibleChars_append] at hloop
      exact List.Sublist.trans (List.sublist_append_left _ _) hloop

lemma attachMeta_texts (docId : String) (pageNums : Option (List Nat)) :
    ∀ ts i, (attachMeta docId pageNums i ts).map (fun c => c.text) = ts := by
  intro ts
  induction ts with
  | nil => intro i; rfl
  | cons t ts ih => intro i; simp [attachMeta, mkChunk, ih]

lemma attachMeta_mem (docId : String) (pageNums : Option (List Nat)) :
    ∀ ts i c, c ∈ attachMeta docId pageNums i ts →
      c.text ∈ ts ∧ c.char_count = c.text.length := by
  intro ts
  induction ts with
  | nil => intro i c hc; simp [attachMeta] at hc
  | cons t ts ih =>
    intro i c hc
    rcases List.mem_cons.mp hc with h | h
    · subst h
      exact ⟨List.mem_cons_self _ _, rfl⟩
    · obtain ⟨h1, h2⟩ := ih (i + 1) c h
      exact ⟨List.mem_cons_of_mem t h1, h2⟩

/-- C1: for the Recursive strategy (any `chunk_size > 0`,
`chunk_overlap < chunk_size`, non-empty text), no character of the input
is lost: the input's non-whitespace characters occur, in order, inside
the concatenation of the returned chunks' texts.  (Equality does not
hold: the algorithm re-appends separators to every fragment, so extra
separator characters may be introduced; and chunk-boundary whitespace is
trimmed, as the claim's "trimmed"/"separators restored" wording allows.) -/
theorem recursive_chunk_text_no_char_loss (chunkSize overlap : Nat)
    (docId : String) (pageNums : Option (List Nat)) (text : List Char)
    (l : List ChunkMetadata) (hne : text ≠ []) (hcs : 0 < chunkSize)
    (hov : overlap < chunkSize)
    (h : chunkTextModel PyChunkingStrategy.recursive chunkSize overlap docId
      pageNums text = some l) :
    List.Sublist (visibleChars text)
      (visibleChars ((l.map (fun c => c.text)).flatten)) := by
  have hl : l = recursiveChunking chunkSize docId pageNums text :=
    (Option.some.inj h).symm
  subst hl
  unfold recursiveChunking
  rw [attachMeta_texts]
  exact rsplit_no_loss chunkSize pySeparators text

/-- C1 witness: the no-loss statement instantiated on the text "a" with
`chunk_size = 3`, `chunk_overlap = 0`. -/
theorem recursive_chunk_text_no_char_loss_witness :
    (['a'] : List Char) ≠ [] ∧ (0 < 3) ∧ (0 < 3) ∧
    chunkTextModel PyChunkingStrategy.recursive 3 0 "d" none ['a'] =
      some [mkChunk "d" none 0 ['a']] ∧
    List.Sublist (visibleChars ['a'])
      (visibleChars (([mkChunk "d" none 0 ['a']].map (fun c => c.text)).flatten)) :=
  ⟨by decide, by decide, by decide, by decide,
    recursive_chunk_text_no_char_loss 3 0 "d" none ['a'] [mkChunk "d" none 0 ['a']]
      (by decide) (by decide) (by decide) (by decide)⟩

lemma rsplitLoop_length_le (chunkSize : Nat)
    (recur : List Char → List (List Char)) :
    ∀ ps acc cur,
      (∀ p ∈ ps, chunkSize < p.length → ∀ s ∈ recur p, s.length ≤ chunkSize) →
      (∀ s ∈ acc, s.length ≤ chunkSize) → cur.length ≤ chunkSize →
      ∀ s ∈ rsplitLoop chunkSize recur ps acc cur, s.length ≤ chunkSize := by
  intro ps
  induction ps with
  | nil =>
    intro acc cur _ hacc hcur s hs
    rw [rsplitLoop_nil] at hs
    by_cases h : pyStrip cur = []
    · rw [if_pos h] at hs
      exact hacc s hs
    · rw [if_neg h] at hs
      rcases List.mem_append.mp hs with h1 | h1
      · exact hacc s h1
      · have hseq : s = pyStrip cur := by simpa using h1
        subst hseq
        exact le_trans (pyStrip_length_le cur) hcur
  | cons p ps ih =>
    intro acc cur hrec hacc hcur s hs
    rw [rsplitLoop_cons] at hs
    by_cases hfit : cur.length + p.length ≤ chunkSize
    · rw [if_pos hfit] at hs
      refine ih acc (cur ++ p)
        (fun q hq hql => hrec q (List.mem_cons_of_mem p hq) hql) hacc ?_ s hs
      rw [List.length_append]
      omega
    · rw [if_neg hfit] at hs
      have hacc1 : ∀ t ∈ (if cur = [] then acc else acc ++ [pyStrip cur]),
          t.length ≤ chunkSize := by
        intro t ht
        by_cases hc : cur = []
        · rw [if_pos hc] at ht
          exact hacc t ht
        · rw [if_neg hc] at ht
          rcases List.mem_append.mp ht with h1 | h1
          · exact hacc t h1
          · have hteq : t = pyStrip cur := by simpa using h1
            subst hteq
            exact le_trans (pyStrip_length_le cur) hcur
      by_cases hover : chunkSize < p.length
      · rw [if_pos hover] at hs
        refine ih _ []
          (fun q hq hql => hrec q (List.mem_cons_of_mem p hq) hql) ?_ (by simp) s hs
        intro t ht
        rcases List.mem_append.mp ht with h1 | h1
        · exact hacc1 t h1
        · exact hrec p (List.mem_cons_self p ps) hover t h1
      · rw [if_neg hover] at hs
        exact ih _ p (fun q hq hql => hrec q (List.mem_cons_of_mem p hq) hql)
          hacc1 (by omega) s hs

lemma rsplit_char_level_bound (chunkSize : Nat) (hcs : 1 ≤ chunkSize) :
    ∀ text, ∀ s ∈ rsplit chunkSize [[]] text, s.length ≤ chunkSize := by
  intro text s hs
  rw [rsplit_cons] at hs
  refine rsplitLoop_length_le chunkSize (rsplit chunkSize [])
    (splitPieces [] text) [] [] ?_ (by simp) (by simp) s hs
  intro p hp hpl
  exfalso
  unfold splitPieces at hp
  rw [if_pos rfl] at hp
  obtain ⟨c, _, rfl⟩ := List.mem_map.mp hp
  simp at hpl
  omega

lemma rsplit_step_bound (chunkSize : Nat) (sep : List Char)
    (rest : List (List Char))
    (ihb : ∀ text, ∀ s ∈ rsplit chunkSize rest text, s.length ≤ chunkSize) :
    ∀ text, ∀ s ∈ rsplit chunkSize (sep :: rest) text, s.length ≤ chunkSize := by
  intro text s hs
  rw [rsplit_cons] at hs
  exact rsplitLoop_length_le chunkSize (rsplit chunkSize rest)
    (splitPieces sep text) [] [] (fun p _ _ => ihb p) (by simp) (by simp) s hs

lemma rsplit_pySeparators_bound (chunkSize : Nat) (hcs : 1 ≤ chunkSize) :
    ∀ text, ∀ s ∈ rsplit chunkSize pySeparators text, s.length ≤ chunkSize := by
  have h6 := rsplit_char_level_bound chunkSize hcs
  have h5 := rsplit_step_bound chunkSize [' '] [[]] h6
  have h4 := rsplit_step_bound chunkSize ['?', ' '] [[' '], []] h5
  have h3 := rsplit_step_bound chunkSize ['!', ' '] [['?', ' '], [' '], []] h4
  have h2 := rsplit_step_bound chunkSize ['.', ' ']
    [['!', ' '], ['?', ' '], [' '], []] h3
  have h1 := rsplit_step_bound chunkSize ['\n']
    [['.', ' '], ['!', ' '], ['?', ' '], [' '], []] h2
  exact rsplit_step_bound chunkSize ['\n', '\n']
    [['\n'], ['.', ' '], ['!', ' '], ['?', ' '], [' '], []] h1

/-- C2: every chunk produced by the Recursive strategy has length at most
`chunk_size`, or is a single character.  (In fact the recursion never
leaves an oversized chunk at all when `chunk_size ≥ 1`: single characters
always fit, so the left disjunct always holds.) -/
theorem recursive_chunk_size_bound (chunkSize overlap : Nat) (docId : String)
    (pageNums : Option (List Nat)) (text : List Char) (l : List ChunkMetadata)
    (c : ChunkMetadata) (hcs : 1 ≤ chunkSize)
    (h : chunkTextModel PyChunkingStrategy.recursive chunkSize overlap docId
      pageNums text = some l) (hc : c ∈ l) :
    c.text.length ≤ chunkSize ∨ c.text.length = 1 := by
  have hl : l = recursiveChunking chunkSize docId pageNums text :=
    (Option.some.inj h).symm
  subst hl
  unfold recursiveChunking at hc
  obtain ⟨htext, _⟩ := attachMeta_mem docId pageNums _ 0 c hc
  exact Or.inl (rsplit_pySeparators_bound chunkSize hcs text c.text htext)

/-- C2 witness: the size bound instantiated on the text "a" with
`chunk_size = 2`, whose output is the single chunk "a". -/
theorem recursive_chunk_size_bound_witness :
    (1 ≤ 2) ∧
    chunkTextModel PyChunkingStrategy.recursive 2 0 "d" none ['a'] =
      some [mkChunk "d" none 0 ['a']] ∧
    mkChunk "d" none 0 ['a'] ∈ [mkChunk "d" none 0 ['a']] ∧
    ((mkChunk "d" none 0 ['a']).text.length ≤ 2 ∨
      (mkChunk "d" none 0 ['a']).text.length = 1) :=
  ⟨by decide, by decide, by decide,
    recursive_chunk_size_bound 2 0 "d" none ['a']
      [mkChunk "d" none 0 ['a']]
      (mkChunk "d" none 0 ['a']) (by decide) (by decide) (by decide)⟩

/-! ## The semantic strategy: C9 and C10 -/

lemma semanticLoop_nil (chunkSize : Nat) (docId : String)
    (pageNums : Option (List Nat)) (chunks : List ChunkMetadata)
    (cur : List Char) (idx : Nat) :
    semanticLoop chunkSize docId pageNums [] chunks cur idx =
      if pyStrip cur = [] then chunks
      else chunks ++ [mkSemChunk docId pageNums idx cur] := rfl

lemma semanticLoop_cons (chunkSize : Nat) (docId : String)
    (pageNums : Option (List Nat)) (p : List Char) (ps : List (List Char))
    (chunks : List ChunkMetadata) (cur : List Char) (idx : Nat) :
    semanticLoop chunkSize docId pageNums (p :: ps) chunks cur idx =
      if pyStrip p = [] then
        semanticLoop chunkSize docId pageNums ps chunks cur idx
      else if cur ≠ [] ∧ chunkSize < cur.length + (pyStrip p).length then
        semanticLoop chunkSize docId pageNums ps
          (chunks ++ [mkSemChunk docId pageNums idx cur])
          (pyStrip p ++ ['\n', '\n']) (idx + 1)
      else
        semanticLoop chunkSize docId pageNums ps chunks
          (cur ++ pyStrip p ++ ['\n', '\n']) idx := rfl

lemma semanticLoop_trim_ne (chunkSize : Nat) (docId : String)
    (pageNums : Option (List Nat)) :
    ∀ ps chunks cur idx,
      (∀ c ∈ chunks, pyStrip c.text ≠ []) →
      (cur = [] ∨ visibleChars cur ≠ []) →
      ∀ c ∈ semanticLoop chunkSize docId pageNums ps chunks cur idx,
        pyStrip c.text ≠ [] := by
  intro ps
  induction ps with
  | nil =>
    intro chunks cur idx hch hcur c hc
    rw [semanticLoop_nil] at hc
    by_cases h : pyStrip cur = []
    · rw [if_pos h] at hc
      exact hch c hc
    · rw [if_neg h] at hc
      rcases List.mem_append.mp hc with h1 | h1
      · exact hch c h1
      · have hceq : c = mkSemChunk docId pageNums idx cur := by simpa using h1
        subst hceq
        show pyStrip (pyStrip cur) ≠ []
        apply pyStrip_ne_nil
        rw [visibleChars_pyStrip]
        exact visible_ne_nil_of_pyStrip_ne h
  | cons p ps ih =>
    intro chunks cur idx hch hcur c hc
    rw [semanticLoop_cons] at hc
    by_cases hp : pyStrip p = []
    · rw [if_pos hp] at hc
      exact ih chunks cur idx hch hcur c hc
    · rw [if_neg hp] at hc
      have hpvis : visibleChars (pyStrip p) ≠ [] := by
        rw [visibleChars_pyStrip]
        exact visible_ne_nil_of_pyStrip_ne hp
      by_cases hcond : cur ≠ [] ∧ chunkSize < cur.length + (pyStrip p).length
      · rw [if_pos hcond] at hc
        refine ih _ _ _ ?_ ?_ c hc
        · intro c' hc'
          rcases List.mem_append.mp hc' with h1 | h1
          · exact hch c' h1
          · have hceq : c' = mkSemChunk docId pageNums idx cur := by simpa using h1
            subst hceq
            show pyStrip (pyStrip cur) ≠ []
            apply pyStrip_ne_nil
            rw [visibleChars_pyStrip]
            rcases hcur with h2 | h2
            · exact absurd h2 hcond.1
            · exact h2
        · right
          rw [visibleChars_append]
          intro hv
          rcases List.append_eq_nil.mp hv with ⟨h1, _⟩
          exact hpvis h1
      · rw [if_neg hcond] at hc
        refine ih _ _ _ hch ?_ c hc
        right
        intro hv
        simp only [visibleChars_append, List.append_eq_nil] at hv
        tauto

lemma nlnl_getLast (l : List Char) :
    (l ++ ['\n', '\n']).getLast? = some '\n' := by
  rw [List.getLast?_append]
  rfl

lemma semanticLoop_char_count (chunkSize : Nat) (docId : String)
    (pageNums : Option (List Nat)) :
    ∀ ps chunks cur idx,
      (∀ c ∈ chunks, c.text.length < c.char_count) →
      (cur = [] ∨ cur.getLast? = some '\n') →
      ∀ c ∈ semanticLoop chunkSize docId pageNums ps chunks cur idx,
        c.text.length < c.char_count := by
  intro ps
  induction ps with
  | nil =>
    intro chunks cur idx hch hcur c hc
    rw [semanticLoop_nil] at hc
    by_cases h : pyStrip cur = []
    · rw [if_pos h] at hc
      exact hch c hc
    · rw [if_neg h] at hc
      rcases List.mem_append.mp hc with h1 | h1
      · exact hch c h1
      · have hceq : c = mkSemChunk docId pageNums idx cur := by simpa using h1
        subst hceq
        show (pyStrip cur).length < cur.length
        rcases hcur with h2 | h2
        · rw [h2] at h
          simp [pyStrip] at h
        · exact pyStrip_length_lt h2 (by decide)
  | cons p ps ih =>
    intro chunks cur idx hch hcur c hc
    rw [semanticLoop_cons] at hc
    by_cases hp : pyStrip p = []
    · rw [if_pos hp] at hc
      exact ih chunks cur idx hch hcur c hc
    · rw [if_neg hp] at hc
      by_cases hcond : cur ≠ [] ∧ chunkSize < cur.length + (pyStrip p).length
      · rw [if_pos hcond] at hc
        refine ih _ _ _ ?_ ?_ c hc
        · intro c' hc'
          rcases List.mem_append.mp hc' with h1 | h1
          · exact hch c' h1
          · have hceq : c' = mkSemChunk docId pageNums idx cur := by simpa using h1
            subst hceq
            show (pyStrip cur).length < cur.length
            rcases hcur with h2 | h2
            · exact absurd h2 hcond.1
            · exact pyStrip_length_lt h2 (by decide)
        · exact Or.inr (nlnl_getLast (pyStrip p))
      · rw [if_neg hcond] at hc
        refine ih _ _ _ hch ?_ c hc
        right
        have hassoc : cur ++ pyStrip p ++ ['\n', '\n'] =
            (cur ++ pyStrip p) ++ ['\n', '\n'] := by
          rw [List.append_assoc]
        rw [hassoc]
        exact nlnl_getLast (cur ++ pyStrip p)

/-- C9 counterexample: on input " \n\nabc" with `chunk_size = 3`, the
Recursive strategy flushes a whitespace-only buffer through
`chunks.append(current_chunk.strip())`, producing a chunk whose text is
the empty string (and, incidentally, later chunks containing separator
characters ".", "!", "?" that re-splitting injected). -/
theorem recursive_empty_chunk_counterexample :
    (recursiveChunking 3 "d" none [' ', '\n', '\n', 'a', 'b', 'c']).map
        (fun c => c.text) =
      [[], ['a', 'b', 'c'], ['.'], ['!'], ['?']] ∧
    (recursiveChunking 3 "d" none [' ', '\n', '\n', 'a', 'b', 'c']).any
        (fun c => decide (pyStrip c.text = [])) = true := by
  decide

/-- C9 (amended): for the Fixed and Semantic strategies every returned
chunk's text is non-empty after trimming whitespace; the Recursive
strategy violates this (see the counterexample) when it flushes a
whitespace-only accumulation buffer. -/
theorem fixed_semantic_chunks_trim_nonempty (strategy : PyChunkingStrategy)
    (chunkSize overlap : Nat) (docId : String) (pageNums : Option (List Nat))
    (text : List Char) (l : List ChunkMetadata) (c : ChunkMetadata)
    (hstrat : strategy = PyChunkingStrategy.fixed ∨
      strategy = PyChunkingStrategy.semantic)
    (h : chunkTextModel strategy chunkSize overlap docId pageNums text = some l)
    (hc : c ∈ l) : pyStrip c.text ≠ [] := by
  rcases hstrat with h1 | h1 <;> subst h1
  · exact (fixedAux_mem_props chunkSize overlap docId pageNums text
      (text.length + 1) 0 0 l h c hc).1
  · have hl : l = semanticChunking chunkSize docId pageNums text :=
      (Option.some.inj h).symm
    subst hl
    exact semanticLoop_trim_ne chunkSize docId pageNums (paraSplit text) [] [] 0
      (by simp) (Or.inl rfl) c hc

/-- C9 witness: the amended statement instantiated on the Semantic
strategy with text "x". -/
theorem fixed_semantic_chunks_trim_nonempty_witness :
    (PyChunkingStrategy.semantic = PyChunkingStrategy.fixed ∨
      PyChunkingStrategy.semantic = PyChunkingStrategy.semantic) ∧
    chunkTextModel PyChunkingStrategy.semantic 3 0 "d" none ['x'] =
      some [mkSemChunk "d" none 0 ['x', '\n', '\n']] ∧
    mkSemChunk "d" none 0 ['x', '\n', '\n'] ∈
      [mkSemChunk "d" none 0 ['x', '\n', '\n']] ∧
    pyStrip (mkSemChunk "d" none 0 ['x', '\n', '\n']).text ≠ [] :=
  ⟨by decide, by decide, by decide,
    fixed_semantic_chunks_trim_nonempty PyChunkingStrategy.semantic 3 0 "d"
      none ['x'] [mkSemChunk "d" none 0 ['x', '\n', '\n']]
      (mkSemChunk "d" none 0 ['x', '\n', '\n'])
      (by decide) (by decide) (by decide)⟩

/-- C10: for the Semantic strategy `char_count` is computed from the
unstripped buffer, which always ends in the appended paragraph separator,
so it strictly exceeds the length of the chunk's stripped text; for the
Fixed and Recursive strategies `char_count` equals the text's length. -/
theorem char_count_vs_text_length (chunkSize overlap : Nat) (docId : String)
    (pageNums : Option (List Nat)) (text : List Char)
    (ls lf lr : List ChunkMetadata)
    (hs : chunkTextModel PyChunkingStrategy.semantic chunkSize overlap docId
      pageNums text = some ls)
    (hf : chunkTextModel PyChunkingStrategy.fixed chunkSize overlap docId
      pageNums text = some lf)
    (hr : chunkTextModel PyChunkingStrategy.recursive chunkSize overlap docId
      pageNums text = some lr) :
    (∀ c ∈ ls, c.text.length < c.char_count) ∧
    (∀ c ∈ lf, c.char_count = c.text.length) ∧
    (∀ c ∈ lr, c.char_count = c.text.length) := by
  refine ⟨?_, ?_, ?_⟩
  · have hl : ls = semanticChunking chunkSize docId pageNums text :=
      (Option.some.inj hs).symm
    subst hl
    exact semanticLoop_char_count chunkSize docId pageNums (paraSplit text)
      [] [] 0 (by simp) (Or.inl rfl)
  · intro c hc
    exact (fixedAux_mem_props chunkSize overlap docId pageNums text
      (text.length + 1) 0 0 lf hf c hc).2
  · have hl : lr = recursiveChunking chunkSize docId pageNums text :=
      (Option.some.inj hr).symm
    subst hl
    intro c hc
    exact (attachMeta_mem docId pageNums _ 0 c hc).2

/-- C10 witness: the statement instantiated on text "x" with
`chunk_size = 3`, `chunk_overlap = 0`. -/
theorem char_count_vs_text_length_witness :
    chunkTextModel PyChunkingStrategy.semantic 3 0 "d" none ['x'] =
      some [mkSemChunk "d" none 0 ['x', '\n', '\n']] ∧
    chunkTextModel PyChunkingStrategy.fixed 3 0 "d" none ['x'] =
      some [mkChunk "d" none 0 ['x']] ∧
    chunkTextModel PyChunkingStrategy.recursive 3 0 "d" none ['x'] =
      some [mkChunk "d" none 0 ['x']] ∧
    ((∀ c ∈ [mkSemChunk "d" none 0 ['x', '\n', '\n']],
        c.text.length < c.char_count) ∧
      (∀ c ∈ [mkChunk "d" none 0 ['x']], c.char_count = c.text.length) ∧
      (∀ c ∈ [mkChunk "d" none 0 ['x']], c.char_count = c.text.length)) :=
  ⟨by decide, by decide, by decide,
    char_count_vs_text_length 3 0 "d" none ['x']
      [mkSemChunk "d" none 0 ['x', '\n', '\n']]
      [mkChunk "d" none 0 ['x']] [mkChunk "d" none 0 ['x']]
      (by decide) (by decide) (by decide)⟩

/-! ## The index store: C4 -/

lemma lookup_updateEntry (l : List (String × DocIndex)) (docId : String)
    (idx : DocIndex) : (updateEntry l docId idx).lookup docId = some idx := by
  unfold updateEntry
  simp [List.lookup]

/-- C4 counterexample: a disk-write failure while storing a valid
document returns an error, yet afterwards the in-memory cache does hold
the newly built index for that `doc_id` — the cache is written before
`_save_to_disk` runs, so the store's state is not unchanged on error. -/
theorem store_document_disk_failure_counterexample :
    (storeDocument ⟨[], []⟩ "D" [mkChunk "D" none 0 ['x']] [[1, 2]] []
        false).2 = some StoreErr.diskFail ∧
    (storeDocument ⟨[], []⟩ "D" [mkChunk "D" none 0 ['x']] [[1, 2]] []
        false).1.cache.lookup "D" ≠ (Store.mk [] []).cache.lookup "D" := by
  decide

/-- C4 (amended): build-time validation failures (chunks/embeddings count
mismatch, empty or ragged embedding array) leave both the cache and the
durable storage exactly as they were; but a durable-storage write failure
leaves the durable storage unchanged while the cache already holds the
fully built index for the `doc_id`. -/
theorem store_document_failure_modes (st : Store) (docId : String)
    (chunks : List ChunkMetadata) (embeddings : List (List Int))
    (meta : List (String × String)) (diskOk : Bool) (e : StoreErr)
    (h : (storeDocument st docId chunks embeddings meta diskOk).2 = some e) :
    (storeDocument st docId chunks embeddings meta diskOk).1.disk = st.disk ∧
    (e ≠ StoreErr.diskFail →
      (storeDocument st docId chunks embeddings meta diskOk).1 = st) ∧
    (e = StoreErr.diskFail → ∃ v vs, embeddings = v :: vs ∧
      (storeDocument st docId chunks embeddings meta
        diskOk).1.cache.lookup docId = some (builtIndex chunks v vs meta)) := by
  unfold storeDocument at h ⊢
  by_cases h1 : chunks.length ≠ embeddings.length
  · rw [if_pos h1] at h ⊢
    have he : e = StoreErr.countMismatch := by simpa using h.symm
    subst he
    exact ⟨rfl, fun _ => rfl, fun hd => absurd hd (by decide)⟩
  · rw [if_neg h1] at h ⊢
    cases embeddings with
    | nil =>
      dsimp only at h ⊢
      have he : e = StoreErr.badShape := by simpa using h.symm
      subst he
      exact ⟨rfl, fun _ => rfl, fun hd => absurd hd (by decide)⟩
    | cons v vs =>
      dsimp only at h ⊢
      by_cases h2 : vs.any (fun w => w.length != v.length) = true
      · rw [if_pos h2] at h ⊢
        have he : e = StoreErr.badShape := by simpa using h.symm
        subst he
        exact ⟨rfl, fun _ => rfl, fun hd => absurd hd (by decide)⟩
      · rw [if_neg h2] at h ⊢
        cases diskOk with
        | true => exact Option.noConfusion h
        | false =>
          refine ⟨rfl, ?_, ?_⟩
          · intro hne
            have he : e = StoreErr.diskFail := by simpa using h.symm
            exact absurd he hne
          · intro _
            exact ⟨v, vs, rfl, lookup_updateEntry st.cache docId _⟩

/-- C4 witness: the amended failure-mode statement instantiated on the
concrete disk-failure scenario of the counterexample. -/
theorem store_document_failure_modes_witness :
    ((storeDocument ⟨[], []⟩ "D" [mkChunk "D" none 0 ['x']] [[1, 2]] []
        false).2 = some StoreErr.diskFail) ∧
    ((storeDocument ⟨[], []⟩ "D" [mkChunk "D" none 0 ['x']] [[1, 2]] []
        false).1.disk = (Store.mk [] []).disk ∧
      (StoreErr.diskFail ≠ StoreErr.diskFail →
        (storeDocument ⟨[], []⟩ "D" [mkChunk "D" none 0 ['x']] [[1, 2]] []
          false).1 = Store.mk [] []) ∧
      (StoreErr.diskFail = StoreErr.diskFail → ∃ v vs,
        ([[1, 2]] : List (List Int)) = v :: vs ∧
        (storeDocument ⟨[], []⟩ "D" [mkChunk "D" none 0 ['x']] [[1, 2]] []
          false).1.cache.lookup "D" =
          some (builtIndex [mkChunk "D" none 0 ['x']] v vs []))) :=
  ⟨by decide,
    store_document_failure_modes ⟨[], []⟩ "D" [mkChunk "D" none 0 ['x']]
      [[1, 2]] [] false StoreErr.diskFail (by decide)⟩

/-! ## The retrieval engine: C3, C6, C7 -/

instance : IsTotal (Nat × Int) distLex :=
  ⟨fun a b => by
    unfold distLex
    rcases lt_trichotomy a.2 b.2 with h | h | h
    · exact Or.inl (Or.inl h)
    · rcases le_total a.1 b.1 with h1 | h1
      · exact Or.inl (Or.inr ⟨h, h1⟩)
      · exact Or.inr (Or.inr ⟨h.symm, h1⟩)
    · exact Or.inr (Or.inl h)⟩

instance : IsTrans (Nat × Int) distLex :=
  ⟨fun a b c hab hbc => by
    unfold distLex at *
    rcases hab with h1 | ⟨h1, h1'⟩ <;> rcases hbc with h2 | ⟨h2, h2'⟩
    · exact Or.inl (lt_trans h1 h2)
    · exact Or.inl (by omega)
    · exact Or.inl (by omega)
    · exact Or.inr ⟨by omega, by omega⟩⟩

instance : IsTotal SearchResult scoreGE :=
  ⟨fun a b => le_total b.score a.score⟩

instance : IsTrans SearchResult scoreGE :=
  ⟨fun a b c hab hbc => le_trans hbc hab⟩

lemma sqDist_nonneg (q v : List Int) : 0 ≤ sqDist q v := by
  unfold sqDist
  apply List.sum_nonneg
  intro x hx
  obtain ⟨p, _, rfl⟩ := List.mem_map.mp hx
  positivity

lemma distPairs_nonneg (q : List Int) :
    ∀ vs i p, p ∈ distPairs q i vs → 0 ≤ p.2 := by
  intro vs
  induction vs with
  | nil => intro i p hp; simp [distPairs] at hp
  | cons v vs ih =>
    intro i p hp
    rcases List.mem_cons.mp hp with h | h
    · subst h
      exact sqDist_nonneg q v
    · exact ih (i + 1) p h

lemma rankVectors_nonneg (q : List Int) (vs : List (List Int)) :
    ∀ p ∈ rankVectors q vs, 0 ≤ p.2 := by
  intro p hp
  have hmem : p ∈ distPairs q 0 vs :=
    (List.perm_insertionSort distLex _).mem_iff.mp hp
  exact distPairs_nonneg q vs 0 p hmem

lemma rankVectors_sorted (q : List Int) (vs : List (List Int)) :
    List.Sorted distLex (rankVectors q vs) :=
  List.sorted_insertionSort distLex _

lemma pairwise_strengthen {α : Type} {R : α → α → Prop} {P : α → Prop} :
    ∀ l : List α, l.Pairwise R → (∀ x ∈ l, P x) →
      l.Pairwise (fun a b => R a b ∧ P a ∧ P b) := by
  intro l
  induction l with
  | nil => intro _ _; exact List.Pairwise.nil
  | cons a l ih =>
    intro hR hP
    rw [List.pairwise_cons] at hR ⊢
    refine ⟨fun b hb => ⟨hR.1 b hb, hP a (List.mem_cons_self a l),
      hP b (List.mem_cons_of_mem a hb)⟩,
      ih hR.2 (fun x hx => hP x (List.mem_cons_of_mem a hx))⟩

lemma pairwise_filterMap {α β : Type} (f : α → Option β) {R : α → α → Prop}
    {S : β → β → Prop}
    (hf : ∀ a b c d, R a b → f a = some c → f b = some d → S c d) :
    ∀ l : List α, l.Pairwise R → (l.filterMap f).Pairwise S := by
  intro l
  induction l with
  | nil => intro _; simp
  | cons a l ih =>
    intro hR
    rw [List.pairwise_cons] at hR
    rw [List.filterMap_cons]
    cases hfa : f a with
    | none => exact ih hR.2
    | some c =>
      rw [List.pairwise_cons]
      refine ⟨?_, ih hR.2⟩
      intro d hd
      obtain ⟨b, hb, hfb⟩ := List.mem_filterMap.mp hd
      exact hf a b c d (hR.1 b hb) hfa hfb

lemma scoreOf_pos (d : Int) (hd : 0 ≤ d) : 0 < scoreOf d := by
  unfold scoreOf
  have hc : (0 : ℚ) ≤ (d : ℚ) := by exact_mod_cast hd
  apply div_pos one_pos
  linarith

lemma scoreOf_le_one (d : Int) (hd : 0 ≤ d) : scoreOf d ≤ 1 := by
  unfold scoreOf
  have hc : (0 : ℚ) ≤ (d : ℚ) := by exact_mod_cast hd
  rw [div_le_one (by linarith)]
  linarith

lemma scoreOf_anti (d1 d2 : Int) (h1 : 0 ≤ d1) (h12 : d1 ≤ d2) :
    scoreOf d2 ≤ scoreOf d1 := by
  unfold scoreOf
  have hc1 : (0 : ℚ) ≤ (d1 : ℚ) := by exact_mod_cast h1
  have hc12 : (d1 : ℚ) ≤ (d2 : ℚ) := by exact_mod_cast h12
  exact one_div_le_one_div_of_le (by linarith) (by linarith)

lemma searchDoc_ok_eq (st : Store) (docId : String) (q : List Int) (k : Nat)
    (idx : DocIndex) (rs : List SearchResult)
    (hidx : loadDoc st docId = some idx)
    (h : searchDoc st docId q k = Except.ok rs) :
    q.length = idx.dim ∧
    rs = ((rankVectors q idx.vectors).take (min k idx.chunks.length)).filterMap
      (fun p => (idx.chunks.get? p.1).map (fun c => mkSearchResult docId c p.2)) := by
  unfold searchDoc at h
  rw [hidx] at h
  dsimp only at h
  by_cases hq : q.length = idx.dim
  · rw [if_pos hq] at h
    exact ⟨hq, (Except.ok.inj h).symm⟩
  · rw [if_neg hq] at h
    cases h

lemma searchDoc_mem_struct (docId : String) (idx : DocIndex) (q : List Int)
    (k : Nat) (r : SearchResult)
    (hr : r ∈ ((rankVectors q idx.vectors).take (min k idx.chunks.length)).filterMap
      (fun p => (idx.chunks.get? p.1).map (fun c => mkSearchResult docId c p.2))) :
    r.score = scoreOf r.distance ∧ 0 ≤ r.distance := by
  obtain ⟨p, hp, hpr⟩ := List.mem_filterMap.mp hr
  cases hg : idx.chunks.get? p.1 with
  | none => rw [hg] at hpr; cases hpr
  | some c =>
    rw [hg] at hpr
    have hre : mkSearchResult docId c p.2 = r := by simpa using hpr
    subst hre
    refine ⟨rfl, ?_⟩
    have hmem : p ∈ rankVectors q idx.vectors :=
      (List.take_sublist _ _).subset hp
    exact rankVectors_nonneg q idx.vectors p hmem

lemma searchDoc_results_sorted (docId : String) (idx : DocIndex) (q : List Int)
    (k : Nat) :
    List.Sorted (fun a b : SearchResult => a.distance ≤ b.distance ∧ scoreGE a b)
      (((rankVectors q idx.vectors).take (min k idx.chunks.length)).filterMap
        (fun p => (idx.chunks.get? p.1).map (fun c => mkSearchResult docId c p.2))) := by
  have hstrong := pairwise_strengthen _ (rankVectors_sorted q idx.vectors)
    (rankVectors_nonneg q idx.vectors)
  have htake := List.Pairwise.sublist (List.take_sublist (min k idx.chunks.length) _)
    hstrong
  apply pairwise_filterMap _ _ _ htake
  intro a b c d hab hfa hfb
  cases hga : idx.chunks.get? a.1 with
  | none => rw [hga] at hfa; cases hfa
  | some ca =>
    rw [hga] at hfa
    have hca : mkSearchResult docId ca a.2 = c := by simpa using hfa
    cases hgb : idx.chunks.get? b.1 with
    | none => rw [hgb] at hfb; cases hfb
    | some cb =>
      rw [hgb] at hfb
      have hcb : mkSearchResult docId cb b.2 = d := by simpa using hfb
      subst hca hcb
      have hle : a.2 ≤ b.2 := by
        rcases hab.1 with h | ⟨h, _⟩
        · exact le_of_lt h
        · exact le_of_eq h
      exact ⟨hle, scoreOf_anti a.2 b.2 hab.2.1 hle⟩

lemma searchDoc_results_length (docId : String) (idx : DocIndex) (q : List Int)
    (k : Nat) :
    (((rankVectors q idx.vectors).take (min k idx.chunks.length)).filterMap
      (fun p => (idx.chunks.get? p.1).map (fun c => mkSearchResult docId c p.2))).length ≤
      min k idx.chunks.length := by
  calc (((rankVectors q idx.vectors).take (min k idx.chunks.length)).filterMap
      (fun p => (idx.chunks.get? p.1).map (fun c => mkSearchResult docId c p.2))).length
      ≤ ((rankVectors q idx.vectors).take (min k idx.chunks.length)).length :=
        List.length_filterMap_le _ _
    _ ≤ min k idx.chunks.length := by
        rw [List.length_take]
        exact min_le_left _ _

/-- C7: a single-document query returns at most `min(k, chunk_count)`
results, sorted by non-decreasing (squared L2) distance and hence
non-increasing score; each result's score is `1 / (1 + distance)`, which
for the non-negative distances the index produces lies in `(0, 1]`; and
the conversion is monotonically decreasing in the distance. -/
theorem single_doc_query_spec (st : Store) (docId : String) (q : List Int)
    (k : Nat) (idx : DocIndex) (rs : List SearchResult)
    (hidx : loadDoc st docId = some idx) (hk : 0 < k)
    (h : searchDoc st docId q k = Except.ok rs) :
    rs.length ≤ min k idx.chunks.length ∧
    List.Sorted (fun a b : SearchResult => a.distance ≤ b.distance) rs ∧
    List.Sorted scoreGE rs ∧
    (∀ r ∈ rs, r.score = scoreOf r.distance ∧ 0 ≤ r.distance ∧
      0 < r.score ∧ r.score ≤ 1) ∧
    (∀ d1 d2 : Int, 0 ≤ d1 → d1 ≤ d2 → scoreOf d2 ≤ scoreOf d1) := by
  obtain ⟨hq, hrs⟩ := searchDoc_ok_eq st docId q k idx rs hidx h
  subst hrs
  have hsorted := searchDoc_results_sorted docId idx q k
  refine ⟨searchDoc_results_length docId idx q k, ?_, ?_, ?_, ?_⟩
  · exact hsorted.imp (fun hab => hab.1)
  · exact hsorted.imp (fun hab => hab.2)
  · intro r hr
    obtain ⟨h1, h2⟩ := searchDoc_mem_struct docId idx q k r hr
    refine ⟨h1, h2, ?_, ?_⟩
    · rw [h1]
      exact scoreOf_pos r.distance h2
    · rw [h1]
      exact scoreOf_le_one r.distance h2
  · exact fun d1 d2 h1 h12 => scoreOf_anti d1 d2 h1 h12

/-- C7 witness: the single-document query contract instantiated on the
one-chunk document "A" of the concrete store. -/
theorem single_doc_query_spec_witness :
    loadDoc cexStore "A" = some (cexIndex "A") ∧ (0 < 3) ∧
    searchDoc cexStore "A" [0, 0] 3 =
      Except.ok [mkSearchResult "A" (mkChunk "A" none 0 ['x']) 0] ∧
    ([mkSearchResult "A" (mkChunk "A" none 0 ['x']) 0].length ≤
        min 3 (cexIndex "A").chunks.length ∧
      List.Sorted (fun a b : SearchResult => a.distance ≤ b.distance)
        [mkSearchResult "A" (mkChunk "A" none 0 ['x']) 0] ∧
      List.Sorted scoreGE [mkSearchResult "A" (mkChunk "A" none 0 ['x']) 0] ∧
      (∀ r ∈ [mkSearchResult "A" (mkChunk "A" none 0 ['x']) 0],
        r.score = scoreOf r.distance ∧ 0 ≤ r.distance ∧
          0 < r.score ∧ r.score ≤ 1) ∧
      (∀ d1 d2 : Int, 0 ≤ d1 → d1 ≤ d2 → scoreOf d2 ≤ scoreOf d1)) :=
  ⟨by decide, by decide, by rfl,
    single_doc_query_spec cexStore "A" [0, 0] 3 (cexIndex "A")
      [mkSearchResult "A" (mkChunk "A" none 0 ['x']) 0]
      (by decide) (by decide) (by rfl)⟩

/-- C6: in `search_multi`, a document whose retrieval fails (here: "B"
absent from both cache and disk) is skipped and contributes nothing —
the call still returns document "A"'s at most 3 results instead of
failing, and in general the output is truncated to `max_total`. -/
theorem search_multi_skips_missing (st : Store) (q : List Int)
    (rsA : List SearchResult) (idxA : DocIndex)
    (hB : loadDoc st "B" = none) (hA : loadDoc st "A" = some idxA)
    (hok : searchDoc st "A" q 3 = Except.ok rsA) :
    searchMulti st ["A", "B"] q 3 4 = rsA ∧ rsA.length ≤ 3 := by
  have hBerr : searchDoc st "B" q 3 = Except.error () := by
    unfold searchDoc
    rw [hB]
  have hpool : multiPool st ["A", "B"] q 3 = rsA := by
    unfold multiPool
    rw [List.map_cons, List.map_cons, List.map_nil, hok, hBerr]
    simp
  obtain ⟨hq, hrs⟩ := searchDoc_ok_eq st "A" q 3 idxA rsA hA hok
  have hlen : rsA.length ≤ 3 := by
    rw [hrs]
    calc _ ≤ min 3 idxA.chunks.length := searchDoc_results_length "A" idxA q 3
      _ ≤ 3 := min_le_left _ _
  have hsortedGE : List.Sorted scoreGE rsA := by
    rw [hrs]
    exact (searchDoc_results_sorted "A" idxA q 3).imp (fun hab => hab.2)
  refine ⟨?_, hlen⟩
  unfold searchMulti
  rw [hpool, hsortedGE.insertionSort_eq]
  exact List.take_of_length_le (by omega)

/-- C6 witness: the skip behavior instantiated on a store that holds a
one-chunk document "A" and no document "B". -/
theorem search_multi_skips_missing_witness :
    loadDoc ⟨[("A", cexIndex "A")], []⟩ "B" = none ∧
    loadDoc ⟨[("A", cexIndex "A")], []⟩ "A" = some (cexIndex "A") ∧
    searchDoc ⟨[("A", cexIndex "A")], []⟩ "A" [0, 0] 3 =
      Except.ok [mkSearchResult "A" (mkChunk "A" none 0 ['x']) 0] ∧
    (searchMulti ⟨[("A", cexIndex "A")], []⟩ ["A", "B"] [0, 0] 3 4 =
        [mkSearchResult "A" (mkChunk "A" none 0 ['x']) 0] ∧
      [mkSearchResult "A" (mkChunk "A" none 0 ['x']) 0].length ≤ 3) :=
  ⟨by decide, by decide, by rfl,
    search_multi_skips_missing ⟨[("A", cexIndex "A")], []⟩ [0, 0]
      [mkSearchResult "A" (mkChunk "A" none 0 ['x']) 0] (cexIndex "A")
      (by decide) (by decide) (by rfl)⟩

lemma filter_score_orderedInsert (s : ℚ) (a : SearchResult)
    (l : List SearchResult) :
    (List.orderedInsert scoreGE a l).filter (fun r => decide (r.score = s)) =
      (a :: l).filter (fun r => decide (r.score = s)) := by
  induction l with
  | nil => rfl
  | cons b l ih =>
    rw [List.orderedInsert]
    by_cases hab : scoreGE a b
    · rw [if_pos hab]
    · rw [if_neg hab]
      have hscore : a.score < b.score := lt_of_not_le hab
      by_cases hpa : a.score = s <;> by_cases hpb : b.score = s
      · exfalso
        rw [hpa, hpb] at hscore
        exact lt_irrefl s hscore
      · simp only [List.filter_cons, ih, hpa, hpb]
        simp
      · simp only [List.filter_cons, ih, hpa, hpb]
        simp
      · simp only [List.filter_cons, ih, hpa, hpb]
        simp

lemma filter_score_insertionSort (s : ℚ) (l : List SearchResult) :
    (List.insertionSort scoreGE l).filter (fun r => decide (r.score = s)) =
      l.filter (fun r => decide (r.score = s)) := by
  induction l with
  | nil => rfl
  | cons a l ih =>
    rw [List.insertionSort, filter_score_orderedInsert, List.filter_cons,
      List.filter_cons, ih]

/-- C3 counterexample: two one-chunk documents "A" and "B" score equally
(both 1) against the query, each at per-document rank 0; reading the
claimed order, the tie must break by `doc_id` ascending, i.e. the "A"
result first.  The code's stable sort instead keeps the pool order given
by `doc_ids = ["B", "A"]`, returning the "B" result first. -/
theorem search_multi_tie_order_counterexample :
    searchMulti cexStore ["B", "A"] [0, 0] 3 4 =
      [mkSearchResult "B" (mkChunk "B" none 0 ['x']) 0,
        mkSearchResult "A" (mkChunk "A" none 0 ['x']) 0] ∧
    c3OrderedB cexStore [0, 0] 3
      (searchMulti cexStore ["B", "A"] [0, 0] 3 4) = false := by
  decide

/-- C3 (amended): the output of `search_multi` is sorted by score
descending, and ties keep the pool order (documents in `doc_ids` order,
then per-document rank): for every score value, the equal-score results
of the output form a prefix of the equal-score results of the
concatenated per-document pool. -/
theorem search_multi_sorted_stable (st : Store) (docIds : List String)
    (q : List Int) (k m : Nat) (s : ℚ) :
    List.Sorted scoreGE (searchMulti st docIds q k m) ∧
    ∃ t, (multiPool st docIds q k).filter (fun r => decide (r.score = s)) =
      (searchMulti st docIds q k m).filter (fun r => decide (r.score = s)) ++ t := by
  constructor
  · unfold searchMulti
    exact List.Pairwise.sublist (List.take_sublist m _)
      (List.sorted_insertionSort scoreGE _)
  · refine ⟨((List.insertionSort scoreGE (multiPool st docIds q k)).drop m).filter
      (fun r => decide (r.score = s)), ?_⟩
    unfold searchMulti
    rw [← List.filter_append, List.take_append_drop, filter_score_insertionSort]
